import Mathlib

/-!
Verification of the `fileitem` package (`src/fileitem.go`): a persistent,
case-insensitive set of string entries backed by a plain-text file, with an
in-memory mirror.

Strings are embedded as `List Char` (Lean's `String` is a structure wrapping
exactly such a list, so string literals transfer via `String.data`).  The
store-wide mutex serializes all operations, so the Go code's observable
behaviour is a sequential state machine over the pair (in-memory set, file
content); we embed each operation as a pure function on that pair.  The OS
file-system collaborator is modelled by passing each operation the outcome of
its I/O calls (success, or an injected failure together with the content the
failed call left behind).  `gq.Set[string]` is Go's `map[string]struct{}`:
an unordered collection of distinct strings; we model it as a duplicate-free
list in insertion order (no claim depends on iteration order).  `f.Stat()` on
a freshly opened handle is assumed to succeed whenever the open succeeded,
matching the spec's black-box collaborator `OpenForAppend ... with Stat`.
`strings.ToLower` is modelled on the ASCII range (the only range the claims
exercise); `unicode.IsSpace` is modelled by the full Unicode White_Space
table that Go uses.
-/

set_option autoImplicit false

/-- Str is the embedding of Go strings: a list of characters. -/
abbrev Str := List Char

namespace FileItemSpec

/-- isSpace mirrors Go's `unicode.IsSpace`: the Unicode White_Space property
(tab, LF, VT, FF, CR, space, NEL, NBSP, ogham space, the U+2000 block,
line/paragraph separators, narrow/medium spaces, ideographic space). -/
def isSpace (c : Char) : Bool :=
  let n := c.toNat
  (9 ≤ n ∧ n ≤ 13) ∨ n = 32 ∨ n = 133 ∨ n = 160 ∨ n = 0x1680 ∨
    (0x2000 ≤ n ∧ n ≤ 0x200A) ∨ n = 0x2028 ∨ n = 0x2029 ∨ n = 0x202F ∨
    n = 0x205F ∨ n = 0x3000

/-- toLowerChar mirrors `strings.ToLower` on one character, for the ASCII
range: latin capital letters map to the corresponding small letters and every
other character is kept. -/
def toLowerChar (c : Char) : Char :=
  if 65 ≤ c.toNat ∧ c.toNat ≤ 90 then Char.ofNat (c.toNat + 32) else c

/-- toLowerStr mirrors `strings.ToLower`: lowercase every character. -/
def toLowerStr (s : Str) : Str := s.map toLowerChar

/-- trimRight drops every trailing white-space character. -/
def trimRight (s : Str) : Str := (s.reverse.dropWhile isSpace).reverse

/-- trimSpace mirrors `strings.TrimSpace`: drop leading and trailing
white-space characters. -/
def trimSpace (s : Str) : Str := trimRight (s.dropWhile isSpace)

/-- normalizeCRLF mirrors `strings.ReplaceAll(s, "\r\n", "\n")`: replace each
non-overlapping carriage-return+line-feed pair, scanning left to right. -/
def normalizeCRLF : Str → Str
  | [] => []
  | [c] => [c]
  | c :: d :: rest =>
    if c = '\r' ∧ d = '\n' then '\n' :: normalizeCRLF rest
    else c :: normalizeCRLF (d :: rest)

/-- splitNL mirrors `strings.Split(s, "\n")`: the list of segments between
line-feed separators (always at least one, possibly empty, segment). -/
def splitNL : Str → List Str
  | [] => [[]]
  | c :: rest =>
    if c = '\n' then [] :: splitNL rest
    else (c :: (splitNL rest).headI) :: (splitNL rest).tail

/-- joinNL mirrors `strings.Join(lines, "\n")`. -/
def joinNL : List Str → Str
  | [] => []
  | [x] => x
  | x :: y :: rest => x ++ '\n' :: joinNL (y :: rest)

/-- addSet mirrors `gq.Set.Add` on the duplicate-free list model: insert the
element unless it is already present. -/
def addSet (s : List Str) (x : Str) : List Str :=
  if s.contains x then s else s ++ [x]

/-- removeSet mirrors `gq.Set.Delete` on the duplicate-free list model:
delete the element. -/
def removeSet (s : List Str) (x : Str) : List Str :=
  s.filter (fun y => y ≠ x)

/-- FileItem is the in-memory half of the Go `FileItem` structure: the set of
normalized entries (the path only names the single backing file, and the
mutex serializes access, so neither needs to appear in the state). -/
structure FileItem where
  items : List Str
deriving DecidableEq

/-- Err enumerates the error values the package can return: the four
`errors.New` messages of `fileitem.go` and a propagated OS error. -/
inductive Err
  | cannotAddEmpty     -- "cannot add empty entry"
  | alreadyExists      -- "already exists"
  | cannotRemoveEmpty  -- "cannot remove empty entry"
  | notFound           -- "entry not found"
  | osFail (e : Str)   -- an error propagated from an os.* call
deriving DecidableEq

/-- ReadRes is the outcome of the `os.ReadFile` call in `load`: the data on
success, a not-exist error, or any other error. -/
inductive ReadRes
  | ok (data : Str)
  | notExist
  | fail (e : Str)
deriving DecidableEq

/-- WriteRes is the outcome granted to a write-side os call (`os.WriteFile`
or the write portion of `appendToFile`): success, or a failure carrying the
error and the content the interrupted call left in the file. -/
inductive WriteRes
  | ok
  | fail (e : Str) (left : Str)
deriving DecidableEq

/-- FileItem.containsItem mirrors the private `contains` method: trim the
item, return false if blank, otherwise test membership of the lowercased
form. -/
def FileItem.containsItem (fi : FileItem) (item : Str) : Bool :=
  let item := trimSpace item
  if item = [] then false
  else fi.items.contains (toLowerStr item)

/-- loadItems mirrors the line-processing loop of `load`: normalize CRLF,
split on line feeds, and fold each trimmed non-blank line, lowercased, into
the set. -/
def loadItems (data : Str) : List Str :=
  (splitNL (normalizeCRLF data)).foldl
    (fun s line =>
      let line := trimSpace line
      if line ≠ [] then addSet s (toLowerStr line) else s)
    []

/-- New mirrors `New` + `load`: read the file; on success load its lines; if
the file does not exist, write an empty file (whose own outcome is `w`) and
start empty; propagate any other read error.  On success it returns the store
together with the resulting file content. -/
def New (r : ReadRes) (w : WriteRes) : Except Err (FileItem × Str) :=
  match r with
  | .ok data => .ok (⟨loadItems data⟩, data)
  | .notExist =>
    match w with
    | .ok => .ok (⟨[]⟩, [])
    | .fail e _ => .error (.osFail e)
  | .fail e => .error (.osFail e)

/-- appendContent is the file content `appendToFile` produces when all its
writes succeed: a separating line feed first when the file is non-empty
(`stat.Size() > 0`), then the item. -/
def appendContent (file : Str) (item : Str) : Str :=
  if file = [] then item else file ++ '\n' :: item

/-- FileItem.Add mirrors `Add`: trim; reject blank; reject an item already
contained; insert the lowercased form in memory; then append the trimmed
(not lowercased) item to the file, whose outcome is `w`.  Returns the error
result, the new in-memory state and the new file content. -/
def FileItem.Add (fi : FileItem) (file : Str) (item : Str) (w : WriteRes) :
    Option Err × FileItem × Str :=
  let item := trimSpace item
  if item = [] then (some .cannotAddEmpty, fi, file)
  else if fi.containsItem item then (some .alreadyExists, fi, file)
  else
    let fi' : FileItem := ⟨addSet fi.items (toLowerStr item)⟩
    match w with
    | .ok => (none, fi', appendContent file item)
    | .fail e left => (some (.osFail e), fi', left)

/-- rewriteContent is the file content `rewriteFile` produces when its write
succeeds: the in-memory entries joined by line feeds, no trailing line
feed. -/
def rewriteContent (items : List Str) : Str := joinNL items

/-- FileItem.Remove mirrors `Remove`: trim; reject blank; if the item is
contained, delete its lowercased form from memory and rewrite the file from
memory (outcome `w`); otherwise report not-found. -/
def FileItem.Remove (fi : FileItem) (file : Str) (item : Str) (w : WriteRes) :
    Option Err × FileItem × Str :=
  let item := trimSpace item
  if item = [] then (some .cannotRemoveEmpty, fi, file)
  else if fi.containsItem item then
    let fi' : FileItem := ⟨removeSet fi.items (toLowerStr item)⟩
    match w with
    | .ok => (none, fi', rewriteContent fi'.items)
    | .fail e left => (some (.osFail e), fi', left)
  else (some .notFound, fi, file)

/-- FileItem.Contains mirrors the public `Contains` method. -/
def FileItem.Contains (fi : FileItem) (item : Str) : Bool :=
  fi.containsItem item

/-- lineItems is the set of entries a list of raw lines denotes: trim each
line, drop the blank ones, lowercase the rest. -/
def lineItems (ls : List Str) : Finset Str :=
  (((ls.map trimSpace).filter (fun t => t ≠ [])).map toLowerStr).toFinset

/-- parseSet is the set of entries an on-disk file content denotes: normalize
carriage-return+line-feed pairs, split on line feeds, trim, drop blanks,
lowercase (the parse that `load` performs). -/
def parseSet (c : Str) : Finset Str :=
  lineItems (splitNL (normalizeCRLF c))

/-- dropLastCR drops a single trailing carriage return, used to describe how
`normalizeCRLF` acts across an appended line-feed separator. -/
def dropLastCR (s : Str) : Str :=
  if s.getLast? = some '\r' then s.dropLast else s

/-- goodEntry states the shape every in-memory entry has in newline-free
runs: trimmed, non-empty, free of line feeds, and already lowercase. -/
def goodEntry (e : Str) : Prop :=
  trimSpace e = e ∧ e ≠ [] ∧ '\n' ∉ e ∧ toLowerStr e = e

/-- Inv is the memory/disk consistency invariant: the parse of the file is
exactly the in-memory set, and every in-memory entry is well-shaped. -/
def Inv (fi : FileItem) (file : Str) : Prop :=
  parseSet file = fi.items.toFinset ∧ ∀ e ∈ fi.items, goodEntry e

/-- ReachableG describes every store state reachable through successful
operations: a successful construction (over an arbitrary initial file, or a
freshly created one), followed by successful Add and Remove calls with
arbitrary items. -/
inductive ReachableG : FileItem → Str → Prop
  | new_ok (r : ReadRes) (w : WriteRes) (fi : FileItem) (file : Str) :
      New r w = .ok (fi, file) → ReachableG fi file
  | add (fi : FileItem) (file item : Str) (fi' : FileItem) (file' : Str) :
      ReachableG fi file →
      FileItem.Add fi file item .ok = (none, fi', file') →
      ReachableG fi' file'
  | remove (fi : FileItem) (file item : Str) (fi' : FileItem) (file' : Str) :
      ReachableG fi file →
      FileItem.Remove fi file item .ok = (none, fi', file') →
      ReachableG fi' file'

/-- ReachableNL is `ReachableG` further restricted to runs in which the
trimmed form of every successfully added item contains no line feed (the
restriction the C1 counterexample forces). -/
inductive ReachableNL : FileItem → Str → Prop
  | new_ok (r : ReadRes) (w : WriteRes) (fi : FileItem) (file : Str) :
      New r w = .ok (fi, file) → ReachableNL fi file
  | add (fi : FileItem) (file item : Str) (fi' : FileItem) (file' : Str) :
      ReachableNL fi file →
      '\n' ∉ trimSpace item →
      FileItem.Add fi file item .ok = (none, fi', file') →
      ReachableNL fi' file'
  | remove (fi : FileItem) (file item : Str) (fi' : FileItem) (file' : Str) :
      ReachableNL fi file →
      FileItem.Remove fi file item .ok = (none, fi', file') →
      ReachableNL fi' file'

/-! ### Character-level lemmas -/

theorem char_toNat_ofNat_shift {n : Nat} (h1 : 65 ≤ n) (h2 : n ≤ 90) :
    (Char.ofNat (n + 32)).toNat = n + 32 := by
  interval_cases n <;> decide

theorem isSpace_toLowerChar (c : Char) : isSpace (toLowerChar c) = isSpace c := by
  by_cases h : 65 ≤ c.toNat ∧ c.toNat ≤ 90
  · have hv := char_toNat_ofNat_shift h.1 h.2
    simp only [toLowerChar, if_pos h, isSpace, hv]
    have h1 := h.1
    have h2 := h.2
    simp only [decide_eq_decide]
    omega
  · simp only [toLowerChar, if_neg h]

theorem toLowerChar_eq_nl {c : Char} : toLowerChar c = '\n' ↔ c = '\n' := by
  by_cases h : 65 ≤ c.toNat ∧ c.toNat ≤ 90
  · have hv := char_toNat_ofNat_shift h.1 h.2
    simp only [toLowerChar, if_pos h]
    have hn : ('\n' : Char).toNat = 10 := rfl
    constructor
    · intro he
      have := congrArg Char.toNat he
      rw [hv, hn] at this
      omega
    · intro he
      have := congrArg Char.toNat he
      rw [hn] at this
      omega
  · simp only [toLowerChar, if_neg h]

theorem toLowerChar_idem (c : Char) : toLowerChar (toLowerChar c) = toLowerChar c := by
  by_cases h : 65 ≤ c.toNat ∧ c.toNat ≤ 90
  · have hv := char_toNat_ofNat_shift h.1 h.2
    simp only [toLowerChar, if_pos h]
    rw [if_neg]
    rw [hv]
    omega
  · simp only [toLowerChar, if_neg h]

/-! ### Lowercasing lemmas -/

theorem toLowerStr_eq_nil {s : Str} : toLowerStr s = [] ↔ s = [] := by
  simp [toLowerStr]

theorem nl_mem_toLowerStr {s : Str} : '\n' ∈ toLowerStr s ↔ '\n' ∈ s := by
  simp only [toLowerStr, List.mem_map]
  constructor
  · rintro ⟨c, hc, he⟩
    rwa [toLowerChar_eq_nl.mp he] at hc
  · intro h
    exact ⟨'\n', h, toLowerChar_eq_nl.mpr rfl⟩

theorem toLowerStr_idem (s : Str) : toLowerStr (toLowerStr s) = toLowerStr s := by
  simp only [toLowerStr, List.map_map]
  exact List.map_congr_left (fun c _ => toLowerChar_idem c)

/-! ### Trimming lemmas -/

theorem dropWhile_idem {α : Type} (p : α → Bool) (l : List α) :
    (l.dropWhile p).dropWhile p = l.dropWhile p := by
  induction l with
  | nil => rfl
  | cons a l ih =>
    by_cases h : p a
    · simpa [List.dropWhile_cons, h] using ih
    · simp [List.dropWhile_cons, h]

theorem dropWhile_head_not {α : Type} {p : α → Bool} {l : List α} {c : α}
    (h : (l.dropWhile p).head? = some c) : p c = false := by
  induction l with
  | nil => simp at h
  | cons a l ih =>
    by_cases ha : p a
    · rw [List.dropWhile_cons_of_pos ha] at h
      exact ih h
    · rw [List.dropWhile_cons_of_neg ha] at h
      simp only [List.head?_cons, Option.some_inj] at h
      subst h
      simpa using ha

theorem trimRight_nil : trimRight [] = [] := rfl

theorem trimRight_append_eq (l : Str) : ∃ u, trimRight l ++ u = l := by
  refine ⟨(l.reverse.takeWhile isSpace).reverse, ?_⟩
  rw [trimRight, ← List.reverse_append, List.takeWhile_append_dropWhile,
    List.reverse_reverse]

theorem trimRight_idem (s : Str) : trimRight (trimRight s) = trimRight s := by
  simp only [trimRight, List.reverse_reverse]
  rw [dropWhile_idem]

theorem dropWhile_trimRight {t : Str} (h : t.dropWhile isSpace = t) :
    (trimRight t).dropWhile isSpace = trimRight t := by
  cases t with
  | nil => rfl
  | cons c t' =>
    have hc : isSpace c = false := by
      by_cases hc : isSpace c
      · rw [List.dropWhile_cons_of_pos hc] at h
        have := (@List.dropWhile_sublist Char t' isSpace).length_le
        have := congrArg List.length h
        simp at this
        omega
      · simpa using hc
    obtain ⟨u, hu⟩ := trimRight_append_eq (c :: t')
    cases htr : trimRight (c :: t') with
    | nil => rfl
    | cons d v =>
      rw [htr] at hu
      have hd : d = c := by
        have := congrArg List.head? hu
        simpa using this
      subst hd
      rw [List.dropWhile_cons_of_neg (by simp [hc])]

theorem trimSpace_idem (s : Str) : trimSpace (trimSpace s) = trimSpace s := by
  simp only [trimSpace]
  rw [dropWhile_trimRight (dropWhile_idem isSpace s), trimRight_idem]

theorem trimRight_append_space {l : Str} {ch : Char} (h : isSpace ch = true) :
    trimRight (l ++ [ch]) = trimRight l := by
  simp only [trimRight, List.reverse_append, List.reverse_cons, List.reverse_nil,
    List.nil_append, List.singleton_append, List.dropWhile_cons_of_pos h]

theorem trimSpace_append_space {l : Str} {ch : Char} (h : isSpace ch = true) :
    trimSpace (l ++ [ch]) = trimSpace l := by
  simp only [trimSpace]
  rw [List.dropWhile_append]
  by_cases he : (l.dropWhile isSpace).isEmpty
  · rw [if_pos he]
    rw [List.isEmpty_iff] at he
    rw [he, trimRight_nil, List.dropWhile_cons_of_pos h]
    rfl
  · rw [if_neg he, trimRight_append_space h]

theorem trimSpace_toLowerStr (s : Str) :
    trimSpace (toLowerStr s) = toLowerStr (trimSpace s) := by
  have hfun : (isSpace ∘ toLowerChar) = isSpace := by
    funext c
    exact isSpace_toLowerChar c
  simp only [trimSpace, trimRight, toLowerStr]
  rw [List.dropWhile_map, hfun, ← List.map_reverse, List.dropWhile_map, hfun,
    ← List.map_reverse]

theorem mem_trimSpace {x : Char} {l : Str} (h : x ∈ trimSpace l) : x ∈ l := by
  obtain ⟨u, hu⟩ := trimRight_append_eq (l.dropWhile isSpace)
  have h1 : x ∈ l.dropWhile isSpace := by
    rw [← hu]
    exact List.mem_append_left _ h
  have h2 := List.takeWhile_append_dropWhile isSpace l
  rw [← h2]
  exact List.mem_append_right _ h1

theorem trimmed_getLast_not_space {t : Str} {ch : Char}
    (h : trimSpace t = t) (hl : t.getLast? = some ch) : isSpace ch = false := by
  rw [← h] at hl
  simp only [trimSpace, trimRight] at hl
  rw [List.getLast?_reverse] at hl
  exact dropWhile_head_not hl

theorem trimmed_getLast_ne_cr {t : Str} (h : trimSpace t = t) :
    t.getLast? ≠ some '\r' := by
  intro hl
  have := trimmed_getLast_not_space h hl
  simp [isSpace] at this

/-! ### normalizeCRLF lemmas -/

theorem normCRLF_cons_not_cr {c : Char} {s : Str} (h : c ≠ '\r') :
    normalizeCRLF (c :: s) = c :: normalizeCRLF s := by
  cases s <;> simp [normalizeCRLF, h]

theorem normCRLF_cons_cons {c d : Char} {s : Str} (h : ¬(c = '\r' ∧ d = '\n')) :
    normalizeCRLF (c :: d :: s) = c :: normalizeCRLF (d :: s) := by
  simp [normalizeCRLF, h]

theorem normCRLF_ne_nil {s : Str} (h : s ≠ []) : normalizeCRLF s ≠ [] := by
  match s with
  | [c] => simp [normalizeCRLF]
  | c :: d :: rest =>
    by_cases hcd : c = '\r' ∧ d = '\n'
    · simp [normalizeCRLF, hcd]
    · simp [normalizeCRLF, hcd]

theorem normCRLF_no_nl {s : Str} (h : '\n' ∉ s) : normalizeCRLF s = s := by
  induction s using normalizeCRLF.induct with
  | case1 => rfl
  | case2 c => rfl
  | case3 c d rest hcd ih =>
    exact absurd (hcd.2 ▸ List.mem_cons_of_mem c (List.mem_cons_self d rest)) h
  | case4 c d rest hcd ih =>
    rw [normCRLF_cons_cons hcd, ih (fun hm => h (List.mem_cons_of_mem c hm))]

theorem dropLastCR_nil : dropLastCR [] = [] := rfl

theorem dropLastCR_cons_ne_nil {a : Char} {N : Str} (h : N ≠ []) :
    dropLastCR (a :: N) = a :: dropLastCR N := by
  obtain ⟨b, l, rfl⟩ : ∃ b l, N = b :: l := by
    cases N with
    | nil => exact absurd rfl h
    | cons b l => exact ⟨b, l, rfl⟩
  simp only [dropLastCR, List.getLast?_cons_cons, List.dropLast_cons₂]
  split <;> rfl

theorem dropLastCR_singleton_ne_cr {a : Char} (h : a ≠ '\r') :
    dropLastCR [a] = [a] := by
  simp [dropLastCR, h]

theorem dropLastCR_cons_ne_cr {a : Char} {N : Str} (h : a ≠ '\r') :
    dropLastCR (a :: N) = a :: dropLastCR N := by
  cases N with
  | nil => rw [dropLastCR_singleton_ne_cr h]; rfl
  | cons b l => exact dropLastCR_cons_ne_nil (by simp)

theorem normCRLF_append_nl (c t : Str) :
    normalizeCRLF (c ++ '\n' :: t) =
      dropLastCR (normalizeCRLF c) ++ '\n' :: normalizeCRLF t := by
  induction c using normalizeCRLF.induct with
  | case1 =>
    rw [List.nil_append, normCRLF_cons_not_cr (by decide)]
    rfl
  | case2 x =>
    by_cases hx : x = '\r'
    · subst hx
      have h1 : normalizeCRLF ('\r' :: '\n' :: t) = '\n' :: normalizeCRLF t := by
        simp [normalizeCRLF]
      have h2 : dropLastCR (normalizeCRLF ['\r']) = [] := by
        simp [normalizeCRLF, dropLastCR]
      simpa [h2] using h1
    · have h1 : normalizeCRLF (x :: '\n' :: t) = x :: normalizeCRLF ('\n' :: t) :=
        normCRLF_cons_cons (by simp [hx])
      rw [List.singleton_append, h1, normCRLF_cons_not_cr (by decide)]
      have h2 : normalizeCRLF [x] = [x] := rfl
      rw [h2, dropLastCR_singleton_ne_cr hx]
      rfl
  | case3 x y rest hxy ih =>
    obtain ⟨rfl, rfl⟩ := hxy
    have h1 : ('\r' :: '\n' :: rest) ++ '\n' :: t = '\r' :: '\n' :: (rest ++ '\n' :: t) := rfl
    rw [h1]
    have h2 : normalizeCRLF ('\r' :: '\n' :: (rest ++ '\n' :: t)) =
        '\n' :: normalizeCRLF (rest ++ '\n' :: t) := by simp [normalizeCRLF]
    have h3 : normalizeCRLF ('\r' :: '\n' :: rest) = '\n' :: normalizeCRLF rest := by
      simp [normalizeCRLF]
    rw [h2, ih, h3, dropLastCR_cons_ne_cr (by decide)]
    rfl
  | case4 x y rest hxy ih =>
    have h1 : (x :: y :: rest) ++ '\n' :: t = x :: y :: (rest ++ '\n' :: t) := rfl
    rw [h1, normCRLF_cons_cons hxy]
    have h2 : y :: (rest ++ '\n' :: t) = (y :: rest) ++ '\n' :: t := rfl
    rw [h2, ih, normCRLF_cons_cons hxy,
      dropLastCR_cons_ne_nil (normCRLF_ne_nil (by simp))]
    rfl

theorem normCRLF_append {a b : Str} (h1 : '\n' ∉ a) (h2 : a.getLast? ≠ some '\r') :
    normalizeCRLF (a ++ b) = a ++ normalizeCRLF b := by
  induction a using normalizeCRLF.induct with
  | case1 => rfl
  | case2 x =>
    have hx : x ≠ '\r' := by
      intro hc
      exact h2 (by simp [hc])
    rw [List.singleton_append, normCRLF_cons_not_cr hx]
    rfl
  | case3 x y rest hxy ih =>
    exact absurd (hxy.2 ▸ List.mem_cons_of_mem x (List.mem_cons_self y rest)) h1
  | case4 x y rest hxy ih =>
    have h1' : '\n' ∉ y :: rest := fun hm => h1 (List.mem_cons_of_mem x hm)
    have h2' : (y :: rest).getLast? ≠ some '\r' := by
      rwa [List.getLast?_cons_cons] at h2
    have he : (x :: y :: rest) ++ b = x :: ((y :: rest) ++ b) := rfl
    rw [he, show x :: ((y :: rest) ++ b) = x :: y :: (rest ++ b) from rfl,
      normCRLF_cons_cons hxy, show y :: (rest ++ b) = (y :: rest) ++ b from rfl,
      ih h1' h2']
    rfl

/-! ### splitNL lemmas -/

theorem splitNL_ne_nil (s : Str) : splitNL s ≠ [] := by
  cases s with
  | nil => simp [splitNL]
  | cons c rest =>
    by_cases h : c = '\n' <;> simp [splitNL, h]

theorem splitNL_cons_nl (s : Str) : splitNL ('\n' :: s) = [] :: splitNL s := by
  simp [splitNL]

theorem splitNL_cons_ne {c : Char} {s : Str} (h : c ≠ '\n') :
    splitNL (c :: s) = (c :: (splitNL s).headI) :: (splitNL s).tail := by
  simp [splitNL, h]

theorem headI_append {α : Type} [Inhabited α] {l m : List α} (h : l ≠ []) :
    (l ++ m).headI = l.headI := by
  cases l <;> simp_all

theorem tail_append_left {α : Type} {l m : List α} (h : l ≠ []) :
    (l ++ m).tail = l.tail ++ m := by
  cases l <;> simp_all

theorem splitNL_no_nl {s : Str} (h : '\n' ∉ s) : splitNL s = [s] := by
  induction s with
  | nil => rfl
  | cons c rest ih =>
    have hc : c ≠ '\n' := fun hc => h (hc ▸ List.mem_cons_self c rest)
    rw [splitNL_cons_ne hc, ih (fun hm => h (List.mem_cons_of_mem c hm))]
    rfl

theorem splitNL_append_nl (a b : Str) :
    splitNL (a ++ '\n' :: b) = splitNL a ++ splitNL b := by
  induction a with
  | nil => rw [List.nil_append, splitNL_cons_nl]; rfl
  | cons c a' ih =>
    by_cases hc : c = '\n'
    · subst hc
      rw [List.cons_append, splitNL_cons_nl, ih, splitNL_cons_nl]
      rfl
    · rw [List.cons_append, splitNL_cons_ne hc, ih,
        headI_append (splitNL_ne_nil a'), tail_append_left (splitNL_ne_nil a'),
        splitNL_cons_ne hc]
      rfl

theorem splitNL_append_single {a : Str} {ch : Char} (h : ch ≠ '\n') :
    ∃ i lst, splitNL a = i ++ [lst] ∧ splitNL (a ++ [ch]) = i ++ [lst ++ [ch]] := by
  induction a with
  | nil =>
    refine ⟨[], [], rfl, ?_⟩
    rw [List.nil_append, show splitNL [ch] = [[ch]] from
      splitNL_no_nl (by intro hm; exact h (List.mem_singleton.mp hm).symm)]
    rfl
  | cons c a' ih =>
    obtain ⟨i, lst, h1, h2⟩ := ih
    by_cases hc : c = '\n'
    · subst hc
      refine ⟨[] :: i, lst, ?_, ?_⟩
      · rw [splitNL_cons_nl, h1]; rfl
      · rw [List.cons_append, splitNL_cons_nl, h2]; rfl
    · cases i with
      | nil =>
        refine ⟨[], c :: lst, ?_, ?_⟩
        · rw [splitNL_cons_ne hc, h1]; rfl
        · rw [List.cons_append, splitNL_cons_ne hc, h2]; rfl
      | cons j i' =>
        refine ⟨(c :: j) :: i', lst, ?_, ?_⟩
        · rw [splitNL_cons_ne hc, h1]; rfl
        · rw [List.cons_append, splitNL_cons_ne hc, h2]; rfl

theorem splitNL_mem_no_nl : ∀ {s l : Str}, l ∈ splitNL s → '\n' ∉ l := by
  intro s
  induction s using splitNL.induct with
  | case1 =>
    intro l hl
    simp only [splitNL, List.mem_singleton] at hl
    simp [hl]
  | case2 rest ih =>
    intro l hl
    rw [splitNL_cons_nl] at hl
    rcases List.mem_cons.mp hl with h | h
    · simp [h]
    · exact ih h
  | case3 c rest hc ih =>
    intro l hl
    rw [splitNL_cons_ne hc] at hl
    rcases List.mem_cons.mp hl with h | h
    · subst h
      intro hm
      rcases List.mem_cons.mp hm with h | h
      · exact hc h.symm
      · have hhead : (splitNL rest).headI ∈ splitNL rest := by
          cases hsr : splitNL rest with
          | nil => exact absurd hsr (splitNL_ne_nil rest)
          | cons x xs => simp
        exact ih hhead h
    · exact ih (List.mem_of_mem_tail h)

/-! ### lineItems and parseSet lemmas -/

theorem mem_lineItems {x : Str} {ls : List Str} :
    x ∈ lineItems ls ↔ ∃ l ∈ ls, trimSpace l ≠ [] ∧ x = toLowerStr (trimSpace l) := by
  simp only [lineItems, List.mem_toFinset, List.mem_map, List.mem_filter]
  constructor
  · rintro ⟨t, ⟨⟨l, hl, rfl⟩, hne⟩, rfl⟩
    refine ⟨l, hl, ?_, rfl⟩
    simpa using hne
  · rintro ⟨l, hl, hne, rfl⟩
    exact ⟨trimSpace l, ⟨⟨l, hl, rfl⟩, by simpa using hne⟩, rfl⟩

theorem lineItems_nil : lineItems [] = ∅ := rfl

theorem lineItems_append (a b : List Str) :
    lineItems (a ++ b) = lineItems a ∪ lineItems b := by
  simp [lineItems, List.filter_append]

theorem lineItems_cons_blank {l : Str} {ls : List Str} (h : trimSpace l = []) :
    lineItems (l :: ls) = lineItems ls := by
  simp [lineItems, h]

theorem lineItems_cons_ne {l : Str} {ls : List Str} (h : trimSpace l ≠ []) :
    lineItems (l :: ls) = insert (toLowerStr (trimSpace l)) (lineItems ls) := by
  simp [lineItems, h]

theorem lineItems_singleton_congr {l1 l2 : Str} (h : trimSpace l1 = trimSpace l2) :
    lineItems [l1] = lineItems [l2] := by
  by_cases hb : trimSpace l1 = []
  · rw [lineItems_cons_blank hb, lineItems_cons_blank (h ▸ hb)]
  · rw [lineItems_cons_ne hb, lineItems_cons_ne (h ▸ hb), h]

theorem lineItems_splitNL_dropLastCR (x : Str) :
    lineItems (splitNL (dropLastCR x)) = lineItems (splitNL x) := by
  by_cases h : x.getLast? = some '\r'
  · obtain ⟨ys, rfl⟩ := List.getLast?_eq_some_iff.mp h
    have hd : dropLastCR (ys ++ ['\r']) = ys := by
      rw [dropLastCR, if_pos h, List.dropLast_concat]
    obtain ⟨i, lst, hs1, hs2⟩ := @splitNL_append_single ys '\r' (by decide)
    rw [hd, hs1, hs2, lineItems_append, lineItems_append,
      @lineItems_singleton_congr lst (lst ++ ['\r'])
        (trimSpace_append_space (by decide)).symm]
  · rw [dropLastCR, if_neg h]

theorem parseSet_nil : parseSet [] = ∅ := by decide

theorem parse_append {c t : Str} (h1 : trimSpace t = t) (h2 : t ≠ [])
    (h3 : '\n' ∉ t) :
    parseSet (c ++ '\n' :: t) = insert (toLowerStr t) (parseSet c) := by
  simp only [parseSet]
  rw [normCRLF_append_nl c t, normCRLF_no_nl h3, splitNL_append_nl,
    lineItems_append, lineItems_splitNL_dropLastCR, splitNL_no_nl h3,
    lineItems_cons_ne (h1.symm ▸ h2), lineItems_nil, h1]
  rw [Finset.union_comm]
  ext b
  simp

theorem parse_prepend {x : Str} (h1 : trimSpace x = x) (h2 : x ≠ [])
    (h3 : '\n' ∉ x) (r : Str) :
    parseSet (x ++ '\n' :: r) = insert (toLowerStr x) (parseSet r) := by
  simp only [parseSet]
  rw [normCRLF_append h3 (trimmed_getLast_ne_cr h1),
    normCRLF_cons_not_cr (by decide), splitNL_append_nl,
    splitNL_no_nl h3, List.singleton_append,
    lineItems_cons_ne (h1.symm ▸ h2), h1]

theorem parse_join {l : List Str} (h : ∀ e ∈ l, goodEntry e) :
    parseSet (joinNL l) = l.toFinset := by
  induction l using joinNL.induct with
  | case1 =>
    rw [show joinNL [] = [] from rfl, parseSet_nil]
    rfl
  | case2 x =>
    obtain ⟨hx1, hx2, hx3, hx4⟩ := h x (by simp)
    rw [show joinNL [x] = x from rfl]
    simp only [parseSet]
    rw [normCRLF_no_nl hx3, splitNL_no_nl hx3, lineItems_cons_ne (hx1.symm ▸ hx2),
      lineItems_nil, hx1, hx4]
    rfl
  | case3 x y rest ih =>
    obtain ⟨hx1, hx2, hx3, hx4⟩ := h x (by simp)
    rw [show joinNL (x :: y :: rest) = x ++ '\n' :: joinNL (y :: rest) from rfl,
      parse_prepend hx1 hx2 hx3,
      ih (fun e he => h e (List.mem_cons_of_mem x he)), hx4]
    exact List.toFinset_cons.symm

/-! ### Set-model and loadItems lemmas -/

theorem mem_addSet {s : List Str} {x y : Str} :
    x ∈ addSet s y ↔ x ∈ s ∨ x = y := by
  by_cases hc : s.contains y
  · have hy : y ∈ s := List.elem_iff.mp hc
    rw [addSet, if_pos hc]
    constructor
    · exact Or.inl
    · rintro (h | rfl)
      · exact h
      · exact hy
  · rw [addSet, if_neg hc]
    simp

theorem addSet_toFinset (s : List Str) (x : Str) :
    (addSet s x).toFinset = insert x s.toFinset := by
  ext a
  simp only [List.mem_toFinset, mem_addSet, Finset.mem_insert]
  tauto

theorem mem_removeSet {s : List Str} {x y : Str} :
    x ∈ removeSet s y ↔ x ∈ s ∧ x ≠ y := by
  simp [removeSet]

theorem removeSet_toFinset (s : List Str) (x : Str) :
    (removeSet s x).toFinset = s.toFinset.erase x := by
  ext a
  simp only [List.mem_toFinset, mem_removeSet, Finset.mem_erase]
  tauto

theorem mem_loadItems_fold (ls : List Str) (init : List Str) (x : Str) :
    x ∈ ls.foldl
      (fun s line =>
        let line := trimSpace line
        if line ≠ [] then addSet s (toLowerStr line) else s)
      init ↔
    x ∈ init ∨ ∃ l ∈ ls, trimSpace l ≠ [] ∧ x = toLowerStr (trimSpace l) := by
  induction ls generalizing init with
  | nil => simp
  | cons a ls ih =>
    rw [List.foldl_cons, ih]
    by_cases ha : trimSpace a = []
    · simp only [ha, ne_eq, not_true_eq_false, if_false]
      constructor
      · rintro (h | ⟨l, hl, hne, rfl⟩)
        · exact Or.inl h
        · exact Or.inr ⟨l, List.mem_cons_of_mem a hl, hne, rfl⟩
      · rintro (h | ⟨l, hl, hne, rfl⟩)
        · exact Or.inl h
        · rcases List.mem_cons.mp hl with rfl | hl'
          · exact absurd ha hne
          · exact Or.inr ⟨l, hl', hne, rfl⟩
    · simp only [ha, ne_eq, not_false_eq_true, if_true, mem_addSet]
      constructor
      · rintro ((h | rfl) | ⟨l, hl, hne, rfl⟩)
        · exact Or.inl h
        · exact Or.inr ⟨a, List.mem_cons_self a ls, ha, rfl⟩
        · exact Or.inr ⟨l, List.mem_cons_of_mem a hl, hne, rfl⟩
      · rintro (h | ⟨l, hl, hne, rfl⟩)
        · exact Or.inl (Or.inl h)
        · rcases List.mem_cons.mp hl with rfl | hl'
          · exact Or.inl (Or.inr rfl)
          · exact Or.inr ⟨l, hl', hne, rfl⟩

theorem loadItems_toFinset (data : Str) :
    (loadItems data).toFinset = parseSet data := by
  ext x
  rw [List.mem_toFinset, loadItems, mem_loadItems_fold]
  simp only [List.not_mem_nil, false_or]
  rw [parseSet, mem_lineItems]

/-! ### Operation characterizations -/

theorem containsItem_trim (fi : FileItem) (item : Str) :
    fi.containsItem (trimSpace item) = fi.containsItem item := by
  simp [FileItem.containsItem, trimSpace_idem]

theorem containsItem_iff_mem {fi : FileItem} {t : Str} (h : trimSpace t ≠ []) :
    fi.containsItem t = true ↔ toLowerStr (trimSpace t) ∈ fi.items := by
  rw [FileItem.containsItem]
  simp only [h, if_neg h]
  exact List.elem_iff

theorem Add_ok_spec {fi : FileItem} {file item : Str} {fi' : FileItem} {file' : Str}
    (h : FileItem.Add fi file item .ok = (none, fi', file')) :
    trimSpace item ≠ [] ∧ fi.containsItem item = false ∧
      fi' = ⟨addSet fi.items (toLowerStr (trimSpace item))⟩ ∧
      file' = appendContent file (trimSpace item) := by
  rw [FileItem.Add] at h
  split_ifs at h with h1 h2
  · simp at h
  · simp at h
  · simp only [Prod.mk.injEq] at h
    rw [containsItem_trim] at h2
    exact ⟨h1, by simpa using h2, h.2.1.symm, h.2.2.symm⟩

theorem Remove_ok_spec {fi : FileItem} {file item : Str} {fi' : FileItem} {file' : Str}
    (h : FileItem.Remove fi file item .ok = (none, fi', file')) :
    trimSpace item ≠ [] ∧ fi.containsItem item = true ∧
      fi' = ⟨removeSet fi.items (toLowerStr (trimSpace item))⟩ ∧
      file' = joinNL (removeSet fi.items (toLowerStr (trimSpace item))) := by
  rw [FileItem.Remove] at h
  split_ifs at h with h1 h2
  · simp at h
  · simp only [Prod.mk.injEq] at h
    rw [containsItem_trim] at h2
    exact ⟨h1, h2, h.2.1.symm, h.2.2.symm⟩
  · simp at h

/-! ### The consistency invariant -/

theorem goodEntry_normalized {l : Str} (h1 : trimSpace l ≠ []) (h2 : '\n' ∉ l) :
    goodEntry (toLowerStr (trimSpace l)) := by
  refine ⟨?_, ?_, ?_, toLowerStr_idem (trimSpace l)⟩
  · rw [trimSpace_toLowerStr, trimSpace_idem]
  · rwa [ne_eq, toLowerStr_eq_nil]
  · intro hm
    exact h2 (mem_trimSpace (nl_mem_toLowerStr.mp hm))

theorem loadItems_good {data : Str} : ∀ e ∈ loadItems data, goodEntry e := by
  intro e he
  rw [loadItems, mem_loadItems_fold] at he
  simp only [List.not_mem_nil, false_or] at he
  obtain ⟨l, hl, hne, rfl⟩ := he
  exact goodEntry_normalized hne (splitNL_mem_no_nl hl)

theorem Inv_new {r : ReadRes} {w : WriteRes} {fi : FileItem} {file : Str}
    (h : New r w = .ok (fi, file)) : Inv fi file := by
  cases r with
  | ok data =>
    rw [New] at h
    simp only [Except.ok.injEq, Prod.mk.injEq] at h
    obtain ⟨rfl, rfl⟩ := h
    exact ⟨(loadItems_toFinset data).symm, loadItems_good⟩
  | notExist =>
    cases w with
    | ok =>
      rw [New] at h
      simp only [Except.ok.injEq, Prod.mk.injEq] at h
      obtain ⟨rfl, rfl⟩ := h
      refine ⟨?_, by simp⟩
      rw [parseSet_nil]
      rfl
    | fail e left => simp [New] at h
  | fail e => simp [New] at h

theorem Inv_add {fi : FileItem} {file item : Str} {fi' : FileItem} {file' : Str}
    (hinv : Inv fi file) (hnl : '\n' ∉ trimSpace item)
    (h : FileItem.Add fi file item .ok = (none, fi', file')) : Inv fi' file' := by
  obtain ⟨ht, _, rfl, rfl⟩ := Add_ok_spec h
  have htt : trimSpace (trimSpace item) = trimSpace item := trimSpace_idem item
  have hgood : goodEntry (toLowerStr (trimSpace item)) := by
    have := @goodEntry_normalized (trimSpace item) (htt.symm ▸ ht) hnl
    rwa [htt] at this
  constructor
  · rw [appendContent]
    split_ifs with hf
    · subst hf
      have hnilset : fi.items.toFinset = ∅ := by
        rw [← hinv.1, parseSet_nil]
      have hnil : fi.items = [] := (List.toFinset_eq_empty_iff _).mp hnilset
      simp only [parseSet]
      rw [normCRLF_no_nl hnl, splitNL_no_nl hnl, lineItems_cons_ne (htt.symm ▸ ht),
        lineItems_nil, htt, hnil, addSet_toFinset]
      rfl
    · rw [parse_append htt ht hnl, hinv.1, addSet_toFinset]
  · intro e he
    rcases mem_addSet.mp he with he' | rfl
    · exact hinv.2 e he'
    · exact hgood

theorem Inv_remove {fi : FileItem} {file item : Str} {fi' : FileItem} {file' : Str}
    (hinv : Inv fi file)
    (h : FileItem.Remove fi file item .ok = (none, fi', file')) : Inv fi' file' := by
  obtain ⟨ht, _, rfl, rfl⟩ := Remove_ok_spec h
  have hgood : ∀ e ∈ removeSet fi.items (toLowerStr (trimSpace item)), goodEntry e :=
    fun e he => hinv.2 e (mem_removeSet.mp he).1
  exact ⟨parse_join hgood, hgood⟩

theorem reachableNL_inv {fi : FileItem} {file : Str} (h : ReachableNL fi file) :
    Inv fi file := by
  induction h with
  | new_ok r w fi file h => exact Inv_new h
  | add fi file item fi' file' _ hnl hstep ih => exact Inv_add ih hnl hstep
  | remove fi file item fi' file' _ hstep ih => exact Inv_remove ih hstep

/-! ### joinNL lemmas -/

theorem containsItem_ne_nil {fi : FileItem} {item : Str}
    (h : fi.containsItem item = true) : trimSpace item ≠ [] := by
  intro hn
  rw [FileItem.containsItem] at h
  simp [hn] at h

theorem joinNL_ne_nil {l : List Str} (h1 : l ≠ []) (h2 : ∀ e ∈ l, e ≠ []) :
    joinNL l ≠ [] := by
  induction l using joinNL.induct with
  | case1 => exact absurd rfl h1
  | case2 x => exact h2 x (by simp)
  | case3 x y rest ih =>
    rw [show joinNL (x :: y :: rest) = x ++ '\n' :: joinNL (y :: rest) from rfl]
    simp

theorem joinNL_getLast_ne_nl {l : List Str} (h : ∀ e ∈ l, e ≠ [] ∧ '\n' ∉ e) :
    (joinNL l).getLast? ≠ some '\n' := by
  induction l using joinNL.induct with
  | case1 => simp [joinNL]
  | case2 x =>
    intro hl
    obtain ⟨ys, hys⟩ := List.getLast?_eq_some_iff.mp hl
    exact (h x (by simp)).2 (by rw [show joinNL [x] = x from rfl] at hys; simp [hys])
  | case3 x y rest ih =>
    have hJ : joinNL (y :: rest) ≠ [] :=
      joinNL_ne_nil (by simp) (fun e he => (h e (List.mem_cons_of_mem x he)).1)
    have ihJ : (joinNL (y :: rest)).getLast? ≠ some '\n' :=
      ih (fun e he => h e (List.mem_cons_of_mem x he))
    rw [show joinNL (x :: y :: rest) = x ++ '\n' :: joinNL (y :: rest) from rfl,
      List.getLast?_append]
    cases hJv : (joinNL (y :: rest)).getLast? with
    | none =>
      rw [← List.getLast?_isSome] at hJ
      rw [hJv] at hJ
      simp at hJ
    | some v =>
      obtain ⟨j, J', hJJ⟩ : ∃ j J', joinNL (y :: rest) = j :: J' := by
        cases hc : joinNL (y :: rest) with
        | nil => exact absurd hc hJ
        | cons j J' => exact ⟨j, J', rfl⟩
      rw [hJJ, List.getLast?_cons_cons]
      rw [hJJ] at hJv ihJ
      rw [hJv]
      simpa [hJv] using ihJ

/-! ### Claim theorems -/

/-- C1 (counterexample): the claim as stated is false.  From the store freshly
created over an absent file, `Add "a\nb"` returns success (its trimmed form is
non-empty and not yet present), but afterwards parsing the backing file yields
the two entries a and b while the in-memory set holds the single entry
"a\nb". -/
theorem C1_counterexample :
    ¬ (∀ (fi : FileItem) (file : Str), ReachableG fi file →
        parseSet file = fi.items.toFinset) := by
  intro h
  have hreach : ReachableG ⟨["a\nb".data]⟩ ("a\nb".data) := by
    refine ReachableG.add ⟨[]⟩ [] ("a\nb".data) _ _ ?_ (by decide)
    exact ReachableG.new_ok .notExist .ok ⟨[]⟩ [] rfl
  have hpar := h _ _ hreach
  revert hpar
  decide

/-- C1 (amended): for every store state reachable through successful
operations in which the trimmed form of every successfully added item
contains no line feed, after each successful Add or Remove (and already after
construction) parsing the backing file — normalize carriage-return+line-feed
pairs to line feeds, split on line feeds, trim each line, drop blank lines,
lowercase the rest — yields exactly the in-memory set of entries. -/
theorem C1_reachable_parse_eq_items (fi : FileItem) (file : Str)
    (h : ReachableNL fi file) : parseSet file = fi.items.toFinset :=
  (reachableNL_inv h).1

/-- C1 (witness): the invariant evaluated on the concrete run `New` over an
absent file followed by a successful `Add "x"`. -/
theorem C1_witness : parseSet ("x".data) = (FileItem.mk ["x".data]).items.toFinset :=
  C1_reachable_parse_eq_items _ _
    (ReachableNL.add ⟨[]⟩ [] ("x".data) _ _
      (ReachableNL.new_ok .notExist .ok ⟨[]⟩ [] rfl) (by decide) (by decide))

/-- C2: whenever `Add s` returns success, `Contains` afterwards returns true
both for `s` itself and for every string `t` whose trimmed, lowercased form
equals that of `s` (differing from `s` only in letter case or in leading and
trailing white space). -/
theorem C2_add_contains (fi : FileItem) (file s : Str) (fi' : FileItem) (file' : Str)
    (h : FileItem.Add fi file s .ok = (none, fi', file'))
    (t : Str) (ht : toLowerStr (trimSpace t) = toLowerStr (trimSpace s)) :
    fi'.Contains t = true ∧ fi'.Contains s = true := by
  obtain ⟨hs, _, rfl, _⟩ := Add_ok_spec h
  have key : ∀ u : Str, toLowerStr (trimSpace u) = toLowerStr (trimSpace s) →
      FileItem.Contains ⟨addSet fi.items (toLowerStr (trimSpace s))⟩ u = true := by
    intro u hu
    have hune : trimSpace u ≠ [] := by
      intro hnil
      rw [hnil] at hu
      simp only [toLowerStr, List.map_nil] at hu
      exact hs (toLowerStr_eq_nil.mp hu.symm)
    rw [FileItem.Contains, containsItem_iff_mem hune, hu]
    exact mem_addSet.mpr (Or.inr rfl)
  exact ⟨key t ht, key s rfl⟩

/-- C2 (witness): after `Add " Foo "` succeeds on the empty store, `Contains`
is true for the case variant `"FOO "` and for `" Foo "` itself. -/
theorem C2_witness :
    FileItem.Contains ⟨["foo".data]⟩ ("FOO ".data) = true ∧
      FileItem.Contains ⟨["foo".data]⟩ (" Foo ".data) = true :=
  C2_add_contains ⟨[]⟩ [] (" Foo ".data) ⟨["foo".data]⟩ ("Foo".data) (by decide)
    ("FOO ".data) (by decide)

/-- C3: the validation failures happen before any mutation.  A blank item
makes Add and Remove fail with their empty-entry errors, a contained item
makes Add fail with already-exists, and a non-blank absent item makes Remove
fail with not-found — each time the in-memory set and the file content are
returned exactly as they were, whatever the pending write outcome would have
been. -/
theorem C3_validation_safe (fi : FileItem) (file item : Str) (w : WriteRes) :
    (trimSpace item = [] →
      FileItem.Add fi file item w = (some .cannotAddEmpty, fi, file) ∧
      FileItem.Remove fi file item w = (some .cannotRemoveEmpty, fi, file)) ∧
    (fi.Contains item = true →
      FileItem.Add fi file item w = (some .alreadyExists, fi, file)) ∧
    (trimSpace item ≠ [] → fi.Contains item = false →
      FileItem.Remove fi file item w = (some .notFound, fi, file)) := by
  refine ⟨fun h => ⟨?_, ?_⟩, fun h => ?_, fun h1 h2 => ?_⟩
  · rw [FileItem.Add]
    simp [h]
  · rw [FileItem.Remove]
    simp [h]
  · rw [FileItem.Contains] at h
    rw [FileItem.Add]
    split_ifs with h1 h2
    · exact absurd h1 (containsItem_ne_nil h)
    · rfl
    · rw [containsItem_trim] at h2
      exact absurd h h2
  · rw [FileItem.Contains] at h2
    rw [FileItem.Remove]
    split_ifs with h1' h2'
    · exact absurd h1' h1
    · rw [containsItem_trim, h2] at h2'
      exact absurd h2' (by simp)
    · rfl

/-- C3 (witness): the three rejections evaluated on concrete stores: a blank
Add and Remove, a duplicate Add, and a Remove of an absent entry. -/
theorem C3_witness :
    FileItem.Add ⟨[]⟩ [] ("  ".data) .ok = (some .cannotAddEmpty, ⟨[]⟩, []) ∧
      FileItem.Add ⟨["a".data]⟩ ("a".data) ("A".data) .ok =
        (some .alreadyExists, ⟨["a".data]⟩, "a".data) ∧
      FileItem.Remove ⟨["a".data]⟩ ("a".data) ("b".data) .ok =
        (some .notFound, ⟨["a".data]⟩, "a".data) :=
  ⟨((C3_validation_safe ⟨[]⟩ [] ("  ".data) .ok).1 (by decide)).1,
    (C3_validation_safe ⟨["a".data]⟩ ("a".data) ("A".data) .ok).2.1 (by decide),
    (C3_validation_safe ⟨["a".data]⟩ ("a".data) ("b".data) .ok).2.2 (by decide) (by decide)⟩

/-- C4: construction parses the file exactly as described — normalize
carriage-return+line-feed pairs, split on line feeds, trim, drop blanks,
lowercase, collapse duplicates — and in particular a store opened over
"Foo\nBar\n\nBAZ" holds exactly the set of entries foo, bar and baz. -/
theorem C4_load_parse :
    (∀ data : Str, (loadItems data).toFinset = parseSet data) ∧
    (∀ w : WriteRes, New (.ok ("Foo\nBar\n\nBAZ".data)) w =
      .ok (⟨loadItems ("Foo\nBar\n\nBAZ".data)⟩, "Foo\nBar\n\nBAZ".data)) ∧
    (loadItems ("Foo\nBar\n\nBAZ".data)).toFinset =
      {"foo".data, "bar".data, "baz".data} :=
  ⟨loadItems_toFinset, fun _ => rfl, by decide⟩

/-- C5: when the store contains the normalized form of `s`, `Remove s`
succeeds, deletes that normalized form from the in-memory set, and overwrites
the file with exactly the remaining entries, one per line, newline-joined;
and the rewritten content never ends in a line feed when the remaining
entries are non-empty and line-feed-free. -/
theorem C5_remove_rewrites (fi : FileItem) (file s : Str)
    (h : fi.Contains s = true) :
    FileItem.Remove fi file s .ok =
      (none, ⟨removeSet fi.items (toLowerStr (trimSpace s))⟩,
        joinNL (removeSet fi.items (toLowerStr (trimSpace s)))) ∧
    ((∀ e ∈ removeSet fi.items (toLowerStr (trimSpace s)), e ≠ [] ∧ '\n' ∉ e) →
      (joinNL (removeSet fi.items (toLowerStr (trimSpace s)))).getLast? ≠ some '\n') := by
  constructor
  · rw [FileItem.Contains] at h
    rw [FileItem.Remove]
    split_ifs with h1 h2
    · exact absurd h1 (containsItem_ne_nil h)
    · rfl
    · rw [containsItem_trim] at h2
      exact absurd h h2
  · exact joinNL_getLast_ne_nl

/-- C5 (witness): removing "a" from the store holding a and b rewrites the
file to exactly "b". -/
theorem C5_witness :
    FileItem.Remove ⟨["a".data, "b".data]⟩ ("a\nb".data) ("a".data) .ok =
      (none, ⟨removeSet ["a".data, "b".data] (toLowerStr (trimSpace ("a".data)))⟩,
        joinNL (removeSet ["a".data, "b".data] (toLowerStr (trimSpace ("a".data))))) ∧
    ((∀ e ∈ removeSet ["a".data, "b".data] (toLowerStr (trimSpace ("a".data))),
        e ≠ [] ∧ '\n' ∉ e) →
      (joinNL (removeSet ["a".data, "b".data]
        (toLowerStr (trimSpace ("a".data))))).getLast? ≠ some '\n') :=
  C5_remove_rewrites ⟨["a".data, "b".data]⟩ ("a\nb".data) ("a".data) (by decide)

/-- C6: after a successful `Add s`, an immediately following Add of any
string whose trimmed, lowercased form equals that of `s` fails with the
already-exists error and leaves the state and the file unchanged, whatever
the pending write outcome would have been. -/
theorem C6_duplicate_add (fi : FileItem) (file s : Str) (fi' : FileItem)
    (file' s' : Str) (w : WriteRes)
    (h : FileItem.Add fi file s .ok = (none, fi', file'))
    (hfold : toLowerStr (trimSpace s') = toLowerStr (trimSpace s)) :
    FileItem.Add fi' file' s' w = (some .alreadyExists, fi', file') := by
  obtain ⟨hs, _, rfl, _⟩ := Add_ok_spec h
  have hne : trimSpace s' ≠ [] := by
    intro hnil
    rw [hnil] at hfold
    simp only [toLowerStr, List.map_nil] at hfold
    exact hs (toLowerStr_eq_nil.mp hfold.symm)
  have hc : (⟨addSet fi.items (toLowerStr (trimSpace s))⟩ : FileItem).containsItem s'
      = true := by
    rw [containsItem_iff_mem hne, hfold]
    exact mem_addSet.mpr (Or.inr rfl)
  rw [FileItem.Add]
  split_ifs with h1 h2
  · exact absurd h1 hne
  · rfl
  · rw [containsItem_trim] at h2
    exact absurd hc h2

/-- C6 (witness): `Add "Foo"` then `Add " FOO "` fails with already-exists and
changes nothing. -/
theorem C6_witness :
    FileItem.Add ⟨["foo".data]⟩ ("Foo".data) (" FOO ".data) .ok =
      (some .alreadyExists, ⟨["foo".data]⟩, "Foo".data) :=
  C6_duplicate_add ⟨[]⟩ [] ("Foo".data) ⟨["foo".data]⟩ ("Foo".data) (" FOO ".data)
    .ok (by decide) (by decide)

/-- C7: constructing over an absent file creates an empty file and yields a
store with an empty in-memory set, while a read failure other than
non-existence makes construction fail, propagating the underlying error
without returning a store. -/
theorem C7_construction :
    (New .notExist .ok = .ok (⟨[]⟩, [])) ∧
    (∀ (e : Str) (w : WriteRes), New (.fail e) w = .error (.osFail e)) :=
  ⟨rfl, fun _ _ => rfl⟩

/-- C8: after a successful Add of a line-feed-free item, reopening a store
over the resulting file succeeds and the fresh store's Contains returns true
for every string with the same trimmed, lowercased form — in particular
`Add "X"` then reload then `Contains "x"`. -/
theorem C8_reload_contains (fi : FileItem) (file s : Str) (fi' : FileItem)
    (file' : Str)
    (h : FileItem.Add fi file s .ok = (none, fi', file'))
    (hnl : '\n' ∉ trimSpace s) (w : WriteRes) (t : Str)
    (ht : toLowerStr (trimSpace t) = toLowerStr (trimSpace s)) :
    ∃ fi2 : FileItem, New (.ok file') w = .ok (fi2, file') ∧ fi2.Contains t = true := by
  obtain ⟨hs, _, _, rfl⟩ := Add_ok_spec h
  refine ⟨⟨loadItems (appendContent file (trimSpace s))⟩, rfl, ?_⟩
  have hne : trimSpace t ≠ [] := by
    intro hnil
    rw [hnil] at ht
    simp only [toLowerStr, List.map_nil] at ht
    exact hs (toLowerStr_eq_nil.mp ht.symm)
  rw [FileItem.Contains, containsItem_iff_mem hne, ht]
  have hmem : toLowerStr (trimSpace s) ∈ parseSet (appendContent file (trimSpace s)) := by
    rw [appendContent]
    split_ifs with hf
    · simp only [parseSet]
      rw [normCRLF_no_nl hnl, splitNL_no_nl hnl,
        lineItems_cons_ne ((trimSpace_idem s).symm ▸ hs), trimSpace_idem]
      exact Finset.mem_insert_self _ _
    · rw [parse_append (trimSpace_idem s) hs hnl]
      exact Finset.mem_insert_self _ _
  rw [← List.mem_toFinset, loadItems_toFinset]
  exact hmem

/-- C8 (witness): `Add "X"` on the empty store writes "X"; reloading that file
yields a store whose `Contains "x"` is true. -/
theorem C8_witness :
    ∃ fi2 : FileItem, New (.ok ("X".data)) .ok = .ok (fi2, "X".data) ∧
      fi2.Contains ("x".data) = true :=
  C8_reload_contains ⟨[]⟩ [] ("X".data) ⟨["x".data]⟩ ("X".data) (by decide)
    (by decide) .ok ("x".data) (by decide)

/-- C9: when the append step fails after the in-memory insert, Add returns
the propagated error, the item stays present in memory (Contains is true),
and the file holds whatever the failed append left behind. -/
theorem C9_append_failure (fi : FileItem) (file s e left : Str)
    (h1 : trimSpace s ≠ []) (h2 : fi.Contains s = false) :
    FileItem.Add fi file s (.fail e left) =
      (some (.osFail e), ⟨addSet fi.items (toLowerStr (trimSpace s))⟩, left) ∧
    FileItem.Contains ⟨addSet fi.items (toLowerStr (trimSpace s))⟩ s = true := by
  constructor
  · rw [FileItem.Add]
    split_ifs with ha hb
    · exact absurd ha h1
    · rw [FileItem.Contains] at h2
      rw [containsItem_trim, h2] at hb
      exact absurd hb (by simp)
    · rfl
  · rw [FileItem.Contains, containsItem_iff_mem h1]
    exact mem_addSet.mpr (Or.inr rfl)

/-- C9 (witness): an append failure during `Add "a"` on the empty store
returns the OS error, leaves "a" present in memory, and here leaves the file
empty — memory and disk have diverged. -/
theorem C9_witness :
    FileItem.Add ⟨[]⟩ [] ("a".data) (.fail ("disk full".data) []) =
      (some (.osFail ("disk full".data)),
        ⟨addSet [] (toLowerStr (trimSpace ("a".data)))⟩, []) ∧
    FileItem.Contains ⟨addSet [] (toLowerStr (trimSpace ("a".data)))⟩ ("a".data) = true :=
  C9_append_failure ⟨[]⟩ [] ("a".data) ("disk full".data) [] (by decide) (by decide)

/-- C10: Add does not reject items with interior line feeds: `Add "a\nb"` on
the empty store succeeds, stores the whole string as one in-memory entry, and
writes it to the file as-is, where it spans two lines. -/
theorem C10_interior_newline :
    FileItem.Add ⟨[]⟩ [] ("a\nb".data) .ok = (none, ⟨["a\nb".data]⟩, "a\nb".data) ∧
    '\n' ∈ trimSpace ("a\nb".data) ∧
    splitNL ("a\nb".data) = ["a".data, "b".data] := by
  decide

end FileItemSpec
